import Mathlib

/-!
Verification of the glyph-atlas loader (`bmfontrender.py`) and the word
scorer (`demowords.py`) of the bitmap-fonts repository, via a shallow
embedding of the Python source into Lean.

Conventions of the embedding:
* Python strings are modelled as `List Char`; codepoints and pixel values
  as `Nat`.
* Python exceptions are modelled with `Except TextErr` (rendering) or
  `Option` (parsing): a `.error`/`none` result marks the place where the
  Python code would raise.
* Python truthiness of lists (`if wids:`) is modelled explicitly as
  non-emptiness, and `x or 0` on an `int`-or-`None` value as `Option.getD 0`
  (an `int` value `0` is falsy in Python, but `0 or 0` is again `0`, so the
  two coincide).
-/

/-- A `(firstCP, lastCP + 1, glyphIndexBase)` triple; the spec's
`CodepointRange`.  Source: tuples built by `PILtxt.parse_chars` and stored
in `self.ranges`. -/
abbrev CodepointRange := Nat × Nat × Nat

/-- Python tuple comparison `(cp, cp) < (l, h, b)`: lexicographic, and a
tuple that is a proper prefix of another compares less.  This is the
ordering used by `bisect.bisect(self.ranges, (cp, cp))` in
`PILtxt.cp_to_glyph`. -/
def keyLt (cp : Nat) (r : CodepointRange) : Prop :=
  cp < r.1 ∨ (cp = r.1 ∧ cp ≤ r.2.1)

instance (cp : Nat) (r : CodepointRange) : Decidable (keyLt cp r) := by
  unfold keyLt; infer_instance

/-- CPython's `bisect.bisect_right` inner loop: while `lo < hi`, probe
`mid = (lo + hi) // 2`; if the key sorts before `a[mid]` set `hi = mid`,
else `lo = mid + 1`. -/
def bisect_right (a : List CodepointRange) (cp : Nat) (lo hi : Nat) : Nat :=
  if _h : lo < hi then
    if keyLt cp (a.getD ((lo + hi) / 2) (0, 0, 0)) then
      bisect_right a cp lo ((lo + hi) / 2)
    else
      bisect_right a cp ((lo + hi) / 2 + 1) hi
  else lo
termination_by hi - lo
decreasing_by
  · omega
  · omega

/-- `PILtxt.cp_to_glyph`, source lines 150-161.  The outer `Option` layer
models the `IndexError` that `self.ranges[idx]` raises when the range list
is empty: `none` is that crash, `some none` is the Python return value
`None`, and `some (some g)` a successful lookup of glyph index `g`. -/
def cp_to_glyph (ranges : List CodepointRange) (cp : Nat) : Option (Option Nat) :=
  let idx0 := bisect_right ranges cp 0 ranges.length
  let idx :=
    if 0 < idx0 ∧ (ranges.length ≤ idx0 ∨ cp < (ranges.getD idx0 (0, 0, 0)).1)
    then idx0 - 1 else idx0
  match ranges[idx]? with
  | none => none
  | some r =>
      some (if r.1 ≤ cp ∧ cp < r.2.1 then some (cp - r.1 + r.2.2) else none)

/-- The well-formedness assumed by the spec for the range table: the list
is non-empty, every range is non-empty (`first < lastExclusive`), and the
ranges are sorted by first codepoint without overlapping (every earlier
range ends at or before every later range starts). -/
def RangesWF (rs : List CodepointRange) : Prop :=
  rs ≠ [] ∧ (∀ r ∈ rs, r.1 < r.2.1) ∧
    rs.Pairwise (fun r s => r.2.1 ≤ s.1)

instance (rs : List CodepointRange) : Decidable (RangesWF rs) := by
  unfold RangesWF; infer_instance

/-- The loop invariant of `bisect_right`: the result stays within
`[lo, hi]`, everything strictly left of it does not sort at-or-after the
key, and everything at or right of it does. -/
theorem bisect_right_inv (a : List CodepointRange) (cp : Nat) (lo hi : Nat)
    (hlh : lo ≤ hi) (hha : hi ≤ a.length)
    (hleft : lo = 0 ∨ ¬ keyLt cp (a.getD (lo - 1) (0, 0, 0)))
    (hright : hi = a.length ∨ keyLt cp (a.getD hi (0, 0, 0))) :
    (lo ≤ bisect_right a cp lo hi ∧ bisect_right a cp lo hi ≤ hi) ∧
    (bisect_right a cp lo hi = 0 ∨
      ¬ keyLt cp (a.getD (bisect_right a cp lo hi - 1) (0, 0, 0))) ∧
    (bisect_right a cp lo hi = a.length ∨
      keyLt cp (a.getD (bisect_right a cp lo hi) (0, 0, 0))) := by
  induction lo, hi using bisect_right.induct a cp with
  | case1 lo hi h hk ih =>
    rw [bisect_right, dif_pos h, if_pos hk]
    have h1 := ih (by omega) (by omega) hleft (Or.inr hk)
    exact ⟨⟨h1.1.1, le_trans h1.1.2 (by omega)⟩, h1.2⟩
  | case2 lo hi h hk ih =>
    rw [bisect_right, dif_pos h, if_neg hk]
    have h2 := ih (by omega) hha (Or.inr (by simpa using hk)) hright
    exact ⟨⟨le_trans (by omega) h2.1.1, h2.1.2⟩, h2.2⟩
  | case3 lo hi h =>
    rw [bisect_right, dif_neg h]
    refine ⟨⟨le_refl _, by omega⟩, hleft, ?_⟩
    have : lo = hi := by omega
    subst this; exact hright

section CpToGlyph

variable {rs : List CodepointRange}

/-- In a well-formed table each stored range is non-empty. -/
theorem RangesWF.lt_of_getD (hwf : RangesWF rs) {i : Nat} (hi : i < rs.length) :
    (rs.getD i (0, 0, 0)).1 < (rs.getD i (0, 0, 0)).2.1 := by
  rw [List.getD_eq_getElem _ _ hi]
  exact hwf.2.1 _ (List.getElem_mem hi)

/-- In a well-formed table, an earlier range ends at or before a later
range starts. -/
theorem RangesWF.end_le_start (hwf : RangesWF rs) {i j : Nat}
    (hij : i < j) (hj : j < rs.length) :
    (rs.getD i (0, 0, 0)).2.1 ≤ (rs.getD j (0, 0, 0)).1 := by
  have hi : i < rs.length := lt_trans hij hj
  rw [List.getD_eq_getElem _ _ hi, List.getD_eq_getElem _ _ hj]
  exact List.pairwise_iff_getElem.mp hwf.2.2 i j hi hj hij

/-- First codepoints are strictly increasing in a well-formed table. -/
theorem RangesWF.first_lt_first (hwf : RangesWF rs) {i j : Nat}
    (hij : i < j) (hj : j < rs.length) :
    (rs.getD i (0, 0, 0)).1 < (rs.getD j (0, 0, 0)).1 :=
  lt_of_lt_of_le (hwf.lt_of_getD (lt_trans hij hj)) (hwf.end_le_start hij hj)

/-- First codepoints are monotone in a well-formed table. -/
theorem RangesWF.first_le_first (hwf : RangesWF rs) {i j : Nat}
    (hij : i ≤ j) (hj : j < rs.length) :
    (rs.getD i (0, 0, 0)).1 ≤ (rs.getD j (0, 0, 0)).1 := by
  rcases Nat.lt_or_ge i j with h | h
  · exact le_of_lt (hwf.first_lt_first h hj)
  · have : i = j := by omega
    subst this; exact le_refl _

/-- Over a non-empty range the Python tuple comparison used by `bisect`
degenerates to comparing the key with the range's first codepoint. -/
theorem keyLt_iff_le (hwf : RangesWF rs) {i : Nat} (hi : i < rs.length)
    (cp : Nat) : keyLt cp (rs.getD i (0, 0, 0)) ↔ cp ≤ (rs.getD i (0, 0, 0)).1 := by
  have h := hwf.lt_of_getD hi
  unfold keyLt
  constructor
  · rintro (h' | ⟨h', _⟩) <;> omega
  · intro h'
    rcases Nat.lt_or_ge cp (rs.getD i (0, 0, 0)).1 with h'' | h''
    · exact Or.inl h''
    · exact Or.inr ⟨by omega, by omega⟩

/-- If `cp` lands in the range stored at position `i` of a well-formed
table, the binary search of `cp_to_glyph` finds that range, and the result
is the range's glyph base plus the offset of `cp` inside it. -/
theorem cp_to_glyph_of_mem (hwf : RangesWF rs) {i : Nat} (hi : i < rs.length)
    (cp : Nat) (h1 : (rs.getD i (0, 0, 0)).1 ≤ cp)
    (h2 : cp < (rs.getD i (0, 0, 0)).2.1) :
    cp_to_glyph rs cp =
      some (some (cp - (rs.getD i (0, 0, 0)).1 + (rs.getD i (0, 0, 0)).2.2)) := by
  have hinv := bisect_right_inv rs cp 0 rs.length (by omega) (le_refl _)
    (Or.inl rfl) (Or.inl rfl)
  set idx0 := bisect_right rs cp 0 rs.length with hidx0
  obtain ⟨⟨_, hub⟩, hL, hR⟩ := hinv
  have hlen : 0 < rs.length := by omega
  -- pin down the raw bisect result, then evaluate the fix-up and the guard
  have hfix : (if 0 < idx0 ∧ (rs.length ≤ idx0 ∨ cp < (rs.getD idx0 (0, 0, 0)).1)
      then idx0 - 1 else idx0) = i := by
    rcases Nat.lt_or_ge (rs.getD i (0, 0, 0)).1 cp with hgt | hge
    · -- cp strictly inside: bisect returns i + 1 and the fix-up subtracts one
      have hub2 : idx0 ≤ i + 1 := by
        by_contra hcon
        have h3 : i < idx0 - 1 := by omega
        have h4 : idx0 - 1 < rs.length := by omega
        rcases hL with h5 | h5
        · omega
        · rw [keyLt_iff_le hwf h4] at h5
          have h6 := hwf.end_le_start h3 h4
          omega
      have hlb2 : i + 1 ≤ idx0 := by
        by_contra hcon
        have h3 : idx0 ≤ i := by omega
        have h4 : idx0 < rs.length := by omega
        rcases hR with h5 | h5
        · omega
        · rw [keyLt_iff_le hwf h4] at h5
          have h6 := hwf.first_le_first h3 hi
          omega
      have hido : idx0 = i + 1 := by omega
      rw [hido, if_pos]
      · omega
      refine ⟨by omega, ?_⟩
      rcases Nat.lt_or_ge (i + 1) rs.length with hl2 | hl2
      · exact Or.inr (by have := hwf.end_le_start (show i < i + 1 by omega) hl2; omega)
      · exact Or.inl (by omega)
    · -- cp is exactly the first codepoint: bisect returns i, no fix-up
      have hcpeq : cp = (rs.getD i (0, 0, 0)).1 := by omega
      have hub2 : idx0 ≤ i := by
        by_contra hcon
        have h3 : i ≤ idx0 - 1 := by omega
        have h4 : idx0 - 1 < rs.length := by omega
        rcases hL with h5 | h5
        · omega
        · rw [keyLt_iff_le hwf h4] at h5
          have h6 := hwf.first_le_first h3 h4
          omega
      have hlb2 : i ≤ idx0 := by
        by_contra hcon
        have h3 : idx0 < i := by omega
        have h4 : idx0 < rs.length := by omega
        rcases hR with h5 | h5
        · omega
        · rw [keyLt_iff_le hwf h4] at h5
          have h6 := hwf.first_lt_first h3 hi
          omega
      have hido : idx0 = i := by omega
      rw [hido, if_neg]
      rintro ⟨_, h5 | h5⟩ <;> omega
  show (match rs[(if 0 < idx0 ∧ (rs.length ≤ idx0 ∨ cp < (rs.getD idx0 (0, 0, 0)).1)
      then idx0 - 1 else idx0)]? with
    | none => none
    | some r =>
        some (if r.1 ≤ cp ∧ cp < r.2.1 then some (cp - r.1 + r.2.2) else none)) = _
  rw [hfix, List.getElem?_eq_getElem hi]
  show some (if rs[i].1 ≤ cp ∧ cp < rs[i].2.1
      then some (cp - rs[i].1 + rs[i].2.2) else none) = _
  have hg : rs[i] = rs.getD i (0, 0, 0) := (List.getD_eq_getElem _ _ hi).symm
  rw [hg, if_pos ⟨h1, h2⟩]

/-- With a non-empty range table `cp_to_glyph` never hits the
`IndexError` modelled by the outer `none`: the fixed-up index is always in
bounds, and the lookup returns the guard's verdict on the range it lands
on. -/
theorem cp_to_glyph_of_not_mem (hne : rs ≠ []) {cp : Nat}
    (h : ∀ r ∈ rs, ¬(r.1 ≤ cp ∧ cp < r.2.1)) :
    cp_to_glyph rs cp = some none := by
  have hinv := bisect_right_inv rs cp 0 rs.length (by omega) (le_refl _)
    (Or.inl rfl) (Or.inl rfl)
  set idx0 := bisect_right rs cp 0 rs.length with hidx0
  obtain ⟨⟨_, hub⟩, _, _⟩ := hinv
  have hlen : 0 < rs.length := List.length_pos.mpr hne
  set idx := (if 0 < idx0 ∧ (rs.length ≤ idx0 ∨ cp < (rs.getD idx0 (0, 0, 0)).1)
      then idx0 - 1 else idx0) with hidx
  have hbound : idx < rs.length := by
    rw [hidx]
    split
    · omega
    · rename_i hcond
      rw [not_and_or] at hcond
      rcases hcond with h5 | h5
      · omega
      · rw [not_or] at h5
        omega
  show (match rs[idx]? with
    | none => none
    | some r =>
        some (if r.1 ≤ cp ∧ cp < r.2.1 then some (cp - r.1 + r.2.2) else none)) = _
  rw [List.getElem?_eq_getElem hbound]
  show some (if rs[idx].1 ≤ cp ∧ cp < rs[idx].2.1
      then some (cp - rs[idx].1 + rs[idx].2.2) else none) = _
  have hmem : rs[idx] ∈ rs := List.getElem_mem hbound
  rw [if_neg (h _ hmem)]

end CpToGlyph

/-- C1: for every atlas whose range table is sorted by first codepoint,
non-overlapping and non-empty, and for every codepoint `cp` inside some
declared range `[first, last)` with glyph-index base `b`,
`cp_to_glyph` returns `b + (cp - first)`. -/
theorem cp_to_glyph_in_declared_range (rs : List CodepointRange)
    (hwf : RangesWF rs) (first last b cp : Nat)
    (hmem : (first, last, b) ∈ rs) (h1 : first ≤ cp) (h2 : cp < last) :
    cp_to_glyph rs cp = some (some (b + (cp - first))) := by
  obtain ⟨i, hi, hget⟩ := List.mem_iff_getElem.mp hmem
  have hgd : rs.getD i (0, 0, 0) = (first, last, b) := by
    rw [List.getD_eq_getElem _ _ hi, hget]
  have := cp_to_glyph_of_mem hwf hi cp (by rw [hgd]; exact h1)
    (by rw [hgd]; exact h2)
  rw [hgd] at this
  simpa [Nat.add_comm] using this

/-- Witness for C1 at a concrete atlas: the table `41-5A ↦ base 0` maps
codepoint 66 to glyph 1. -/
theorem cp_to_glyph_in_declared_range_witness :
    cp_to_glyph [(65, 91, 0)] 66 = some (some (0 + (66 - 65))) :=
  cp_to_glyph_in_declared_range [(65, 91, 0)] (by decide) 65 91 0 66
    (by decide) (by decide) (by decide)

/-- C2: for every atlas whose range table is sorted by first codepoint,
non-overlapping and non-empty, `cp_to_glyph` returns Python `None`
(modelled as `some none`) exactly when the codepoint lies outside every
declared half-open range `[first, last)`. -/
theorem cp_to_glyph_none_iff_unmapped (rs : List CodepointRange)
    (hwf : RangesWF rs) (cp : Nat) :
    cp_to_glyph rs cp = some none ↔
      ∀ r ∈ rs, ¬(r.1 ≤ cp ∧ cp < r.2.1) := by
  constructor
  · intro heq
    by_contra hcon
    push_neg at hcon
    obtain ⟨r, hr, h1, h2⟩ := hcon
    obtain ⟨i, hi, hget⟩ := List.mem_iff_getElem.mp hr
    have hgd : rs.getD i (0, 0, 0) = r := by
      rw [List.getD_eq_getElem _ _ hi, hget]
    have := cp_to_glyph_of_mem hwf hi cp (by rw [hgd]; exact h1)
      (by rw [hgd]; exact h2)
    rw [this] at heq
    simp at heq
  · exact cp_to_glyph_of_not_mem hwf.1

/-- Witness for C2 at a concrete atlas: codepoint 64 is outside `41-5A`,
so the lookup returns `None`. -/
theorem cp_to_glyph_none_iff_unmapped_witness :
    cp_to_glyph [(65, 91, 0)] 64 = some none :=
  (cp_to_glyph_none_iff_unmapped [(65, 91, 0)] (by decide) 64).mpr (by decide)

/-! ### Descriptor `chars` parsing (`PILtxt.parse_chars`)

Python strings are modelled as `List Char`. -/

/-- Python `str.split(sep)` for a one-character separator: splits at every
occurrence, yielding `n + 1` (possibly empty) pieces for `n` separators. -/
def pysplit (c : Char) : List Char → List (List Char)
  | [] => [[]]
  | a :: rest =>
    match pysplit c rest with
    | [] => if a = c then [[], []] else [[a]]
    | first :: others =>
        if a = c then [] :: first :: others else (a :: first) :: others

/-- Python `str.split(sep, 1)` for a one-character separator: splits at
the first occurrence only. -/
def pysplit1 (c : Char) : List Char → List (List Char)
  | [] => [[]]
  | a :: rest =>
    if a = c then [[], rest]
    else
      match pysplit1 c rest with
      | [] => [[a]]
      | first :: others => (a :: first) :: others

/-- Python `str.strip()`: drop whitespace from both ends.  (Lean's
`Char.isWhitespace` covers the ASCII whitespace that can occur in a `.foni`
descriptor.) -/
def pystrip (s : List Char) : List Char :=
  ((s.dropWhile Char.isWhitespace).reverse.dropWhile Char.isWhitespace).reverse

/-- Value of one hexadecimal digit. -/
def hexDigit? (c : Char) : Option Nat :=
  if '0' ≤ c ∧ c ≤ '9' then some (c.toNat - '0'.toNat)
  else if 'a' ≤ c ∧ c ≤ 'f' then some (c.toNat - 'a'.toNat + 10)
  else if 'A' ≤ c ∧ c ≤ 'F' then some (c.toNat - 'A'.toNat + 10)
  else none

/-- Python `int(s, 16)` restricted to plain strings of hexadecimal digits
(the only form the `chars` descriptor lines use); `none` models the
`ValueError` raised on anything else. -/
def parse_hex (s : List Char) : Option Nat :=
  if s = [] then none
  else s.foldlM (fun acc c => (hexDigit? c).map (fun d => acc * 16 + d)) 0

/-- A raw range as built by `parse_chars`: `(firstcp, lastcp + 1, base)`.
The glyph-index base is a Python `int`, which can go negative on
pathological descriptors (a token whose first codepoint exceeds its
last), so it is modelled as `Int`. -/
abbrev RawRange := Nat × Nat × Int

/-- Python tuple comparison on the triples sorted by
`rangetoglyphid.sort()`. -/
def rangeLt (a b : RawRange) : Prop :=
  a.1 < b.1 ∨ (a.1 = b.1 ∧ (a.2.1 < b.2.1 ∨ (a.2.1 = b.2.1 ∧ a.2.2 < b.2.2)))

instance (a b : RawRange) : Decidable (rangeLt a b) := by
  unfold rangeLt; infer_instance

/-- Stable insertion: the new element goes after every element it does not
strictly precede. -/
def pyinsert (x : RawRange) : List RawRange → List RawRange
  | [] => [x]
  | y :: ys => if rangeLt x y then x :: y :: ys else y :: pyinsert x ys

/-- Python `list.sort()` on range triples: a stable sort under the tuple
order.  (Inserting each element, in list order, after all its equals is
extensionally equal to any stable sort for the same total preorder.) -/
def pysort (l : List RawRange) : List RawRange :=
  l.foldl (fun acc x => pyinsert x acc) []

/-- `PILtxt.parse_chars`, source lines 205-218: split every `chars` line
on commas, split each token once on `-` (the last piece doubling as the
first when there is no `-`), convert hex inclusive bounds to half-open
ranges while accumulating the running glyph-index base in file order, and
finally sort by the full tuple.  `none` models the `ValueError` of a
malformed hex token. -/
def parse_chars (lines : List (List Char)) : Option (List RawRange) := do
  let tokens := (lines.map (pysplit ',')).flatten
  let pieces := tokens.map (fun r => pysplit1 '-' (pystrip r))
  let st ← pieces.foldlM
    (fun (acc : List RawRange × Int) piece => do
      let firstcp ← parse_hex (piece.headD [])
      let lastcp0 ← parse_hex (piece.getLastD [])
      let lastcp := lastcp0 + 1
      pure (acc.1 ++ [(firstcp, lastcp, acc.2)],
            acc.2 + ((lastcp : Int) - (firstcp : Int))))
    ([], 0)
  pure (pysort st.1)

/-- The range table actually stored for `cp_to_glyph`: glyph bases are
used as list indices, hence natural numbers for any well-formed
descriptor. -/
def natRanges (l : List RawRange) : List CodepointRange :=
  l.map (fun r => (r.1, r.2.1, r.2.2.toNat))

/-- C5: `parse_chars` converts comma-separated hex tokens to ranges whose
glyph-index bases accumulate across tokens in file order and then sorts by
first codepoint (second conjunct: the two-line descriptor
`20-2F,41-5A` / `30-39` gets bases 0, 16, 42 in file order and is then
reordered by first codepoint); in particular the single line `41-5A`
yields the table `[(0x41, 0x5B, 0)]`, under which `cp_to_glyph` maps the
codepoints `0x41..0x5A` one-to-one onto exactly the glyph indices `0..25`
and everything else to `None`. -/
theorem parse_chars_roundtrip_41_5A :
    parse_chars [['4', '1', '-', '5', 'A']] = some [(0x41, 0x5B, (0 : Int))] ∧
    natRanges [(0x41, 0x5B, (0 : Int))] = [(0x41, 0x5B, 0)] ∧
    parse_chars [['2', '0', '-', '2', 'F', ',', '4', '1', '-', '5', 'A'],
        ['3', '0', '-', '3', '9']] =
      some [(0x20, 0x30, (0 : Int)), (0x30, 0x3A, 42), (0x41, 0x5B, 16)] ∧
    (∀ c : Nat, 0x41 ≤ c → c < 0x5B →
      cp_to_glyph [(0x41, 0x5B, 0)] c = some (some (c - 0x41))) ∧
    (∀ g : Nat, g < 26 →
      cp_to_glyph [(0x41, 0x5B, 0)] (0x41 + g) = some (some g)) ∧
    (∀ c : Nat, c < 0x41 ∨ 0x5B ≤ c →
      cp_to_glyph [(0x41, 0x5B, 0)] c = some none) := by
  have hmain : ∀ c : Nat, 0x41 ≤ c → c < 0x5B →
      cp_to_glyph [(0x41, 0x5B, 0)] c = some (some (c - 0x41)) := by
    intro c h1 h2
    have := @cp_to_glyph_of_mem [(0x41, 0x5B, 0)] (by decide) 0 (by decide)
      c (by simpa using h1) (by simpa using h2)
    simpa using this
  refine ⟨by decide, by decide, by decide, hmain, ?_, ?_⟩
  · intro g hg
    have := hmain (0x41 + g) (by omega) (by omega)
    simpa using this
  · intro c hc
    apply cp_to_glyph_of_not_mem (by decide)
    intro r hr
    have : r = ((0x41 : Nat), (0x5B : Nat), (0 : Nat)) := by simpa using hr
    subst this
    simp only
    omega

/-- Witness for C5: glyph 3 of the `41-5A` table is codepoint `0x44`. -/
theorem parse_chars_roundtrip_41_5A_witness :
    cp_to_glyph [(0x41, 0x5B, 0)] 0x44 = some (some 3) := by
  have h := parse_chars_roundtrip_41_5A
  simpa using h.2.2.2.2.1 3 (by decide)

/-! ### Proportional glyph scanning (`vwfscan_line`) -/

/-- One entry of the `slices` list built by `vwfscan_line`: a run is
`(startX, none)` while still open — Python `(x, None)` — and
`(startX, some (y, endX))` once closed — Python `(startX, y, endX)`. -/
abbrev Slice := Nat × Option (Nat × Nat)

/-- The body of the `for x in xrange(width)` loop of `vwfscan_line`,
source lines 84-93.  `px` is the pixel accessor `pxa`, over an arbitrary
pixel type (ints for 1-bit images, tuples for color images). -/
def vwf_body {α : Type} [DecidableEq α] (px : Nat → Nat → α) (sep : α)
    (y maxwidth : Nat) (slices : List Slice) (x : Nat) : List Slice :=
  let lastS := slices.getLastD (0, none)
  let is_active : Bool := !slices.isEmpty && lastS.2.isNone
  let is_ink : Bool := decide (px x y ≠ sep)
  let is_ending : Bool :=
    is_active && (!is_ink || decide (lastS.1 + maxwidth ≤ x))
  let is_starting : Bool := is_ink && (is_ending || !is_active)
  let slices1 :=
    if is_ending then slices.dropLast ++ [(lastS.1, some (y, x))] else slices
  if is_starting then slices1 ++ [(x, none)] else slices1

/-- `vwfscan_line`, source lines 81-97: scan a scanline for runs of
pixels other than the separator color, then close a run still open at the
end of the line at the line's full width. -/
def vwfscan_line {α : Type} [DecidableEq α] (px : Nat → Nat → α)
    (y width maxwidth : Nat) (sep : α) : List Slice :=
  let slices := (List.range width).foldl (vwf_body px sep y maxwidth) []
  match slices.getLast? with
  | some (s, none) => slices.dropLast ++ [(s, some (y, width))]
  | _ => slices

/-- A closed run `(s, e)` rendered as the slice `(s, y, e)`. -/
def runOf (y : Nat) (se : Nat × Nat) : Slice := (se.1, some (y, se.2))

section VwfScan

variable {α : Type} [DecidableEq α] (px : Nat → Nat → α) (sep : α)

/-- `vwf_body` on an empty slice list: a run starts iff the pixel is not
the separator. -/
theorem vwf_body_nil (y mw x : Nat) :
    vwf_body px sep y mw [] x = if px x y = sep then [] else [(x, none)] := by
  by_cases hp : px x y = sep <;> simp [vwf_body, hp]

/-- `vwf_body` when the most recent run is closed: same as an empty list,
a new run starts iff the pixel is not the separator. -/
theorem vwf_body_closed (y mw x : Nat) (l : List Slice) (se : Nat × Nat) :
    vwf_body px sep y mw (l ++ [runOf y se]) x =
      if px x y = sep then l ++ [runOf y se]
      else l ++ [runOf y se] ++ [(x, none)] := by
  by_cases hp : px x y = sep <;> simp [vwf_body, runOf, hp]

/-- `vwf_body` when the most recent run is still open: a separator pixel
closes it, reaching `maxwidth` columns closes it and immediately starts a
new run, otherwise it stays open. -/
theorem vwf_body_open (y mw x : Nat) (l : List Slice) (s : Nat) :
    vwf_body px sep y mw (l ++ [(s, none)]) x =
      if px x y = sep then l ++ [(s, some (y, x))]
      else if s + mw ≤ x then l ++ [(s, some (y, x)), (x, none)]
      else l ++ [(s, none)] := by
  by_cases hp : px x y = sep
  · simp [vwf_body, hp]
  · by_cases hf : s + mw ≤ x <;> simp [vwf_body, hp, hf]

/-- A closed run recorded while scanning up to column `bound`: non-empty,
ends by `bound`, and no wider than `maxwidth`. -/
def GoodRun (mw bound : Nat) (se : Nat × Nat) : Prop :=
  se.1 < se.2 ∧ se.2 ≤ bound ∧ se.2 - se.1 ≤ mw

/-- Invariant of the scan loop before processing column `x`: the slice
list is a sequence of good closed runs in order, optionally followed by
one open run that started after the last closed run ended, strictly
before `x`, and within `maxwidth` columns of `x`. -/
def ScanInv (mw y x : Nat) (sl : List Slice) : Prop :=
  ∃ cs : List (Nat × Nat), ∃ op : Option Nat,
    sl = cs.map (runOf y) ++
      (match op with | none => [] | some s => [(s, none)]) ∧
    cs.Chain' (fun a b => a.2 ≤ b.1) ∧
    (∀ se ∈ cs, GoodRun mw x se) ∧
    (∀ s, op = some s → s < x ∧ x ≤ s + mw ∧ ∀ se ∈ cs, se.2 ≤ s)

/-- A run that is good while scanning column `x` stays good later. -/
theorem GoodRun.mono {mw x x' : Nat} {se : Nat × Nat}
    (h : GoodRun mw x se) (hx : x ≤ x') : GoodRun mw x' se := by
  obtain ⟨h1, h2, h3⟩ := h
  exact ⟨h1, by omega, h3⟩

/-- An element of `getLast?` is a member of the list. -/
theorem mem_of_getLast? {l : List (Nat × Nat)} {a : Nat × Nat}
    (h : a ∈ l.getLast?) : a ∈ l := by
  obtain ⟨hne, rfl⟩ := List.mem_getLast?_eq_getLast h
  exact List.getLast_mem hne

/-- The scan-loop invariant is preserved by one iteration of the loop
body. -/
theorem ScanInv.step {mw y x : Nat} {sl : List Slice} (hmw : 1 ≤ mw)
    (h : ScanInv mw y x sl) :
    ScanInv mw y (x + 1) (vwf_body px sep y mw sl x) := by
  obtain ⟨cs, op, rfl, hchain, hgood, hop⟩ := h
  cases op with
  | none =>
    rcases List.eq_nil_or_concat' cs with hcs | ⟨cs', se, hcs⟩
    · subst hcs
      show ScanInv mw y (x + 1) (vwf_body px sep y mw [] x)
      rw [vwf_body_nil]
      by_cases hp : px x y = sep
      · rw [if_pos hp]
        exact ⟨[], none, rfl, List.chain'_nil, by simp, by simp⟩
      · rw [if_neg hp]
        exact ⟨[], some x, rfl, List.chain'_nil, by simp,
          by intro s hs; cases hs; exact ⟨by omega, by omega, by simp⟩⟩
    · subst hcs
      show ScanInv mw y (x + 1)
        (vwf_body px sep y mw ((cs' ++ [se]).map (runOf y) ++ []) x)
      rw [List.append_nil, List.map_append]
      show ScanInv mw y (x + 1)
        (vwf_body px sep y mw (cs'.map (runOf y) ++ [runOf y se]) x)
      rw [vwf_body_closed]
      by_cases hp : px x y = sep
      · rw [if_pos hp]
        exact ⟨cs' ++ [se], none, by simp, hchain,
          fun se' hse' => (hgood se' hse').mono (by omega), by simp⟩
      · rw [if_neg hp]
        refine ⟨cs' ++ [se], some x, by simp, hchain,
          fun se' hse' => (hgood se' hse').mono (by omega), ?_⟩
        intro s hs
        cases hs
        exact ⟨by omega, by omega, fun se' hse' => (hgood se' hse').2.1⟩
  | some s =>
    obtain ⟨hs1, hs2, hs3⟩ := hop s rfl
    show ScanInv mw y (x + 1)
      (vwf_body px sep y mw (cs.map (runOf y) ++ [(s, none)]) x)
    rw [vwf_body_open]
    have hnewgood : GoodRun mw (x + 1) (s, x) := ⟨hs1, by omega, by simp; omega⟩
    have hnewchain : (cs ++ [(s, x)]).Chain' (fun a b => a.2 ≤ b.1) := by
      rw [List.chain'_append]
      refine ⟨hchain, List.chain'_singleton _, ?_⟩
      intro a ha b hb
      simp only [List.head?_cons, Option.mem_def, Option.some.injEq] at hb
      subst hb
      exact hs3 a (mem_of_getLast? ha)
    have hallgood : ∀ se' ∈ cs ++ [(s, x)], GoodRun mw (x + 1) se' := by
      intro se' hse'
      rcases List.mem_append.mp hse' with h' | h'
      · exact (hgood se' h').mono (by omega)
      · simp only [List.mem_singleton] at h'
        subst h'
        exact hnewgood
    by_cases hp : px x y = sep
    · rw [if_pos hp]
      exact ⟨cs ++ [(s, x)], none, by simp [runOf], hnewchain, hallgood,
        by simp⟩
    · rw [if_neg hp]
      by_cases hf : s + mw ≤ x
      · rw [if_pos hf]
        refine ⟨cs ++ [(s, x)], some x,
          by simp [runOf, List.append_assoc], hnewchain, hallgood, ?_⟩
        intro s' hs'
        cases hs'
        refine ⟨by omega, by omega, ?_⟩
        intro se' hse'
        rcases List.mem_append.mp hse' with h' | h'
        · have := hs3 se' h'
          omega
        · simp only [List.mem_singleton] at h'
          subst h'
          simp
      · rw [if_neg hf]
        refine ⟨cs, some s, rfl, hchain,
          fun se' hse' => (hgood se' hse').mono (by omega), ?_⟩
        intro s' hs'
        cases hs'
        exact ⟨by omega, by omega, hs3⟩

/-- The scan loop establishes its invariant from the empty list. -/
theorem scan_fold_inv (y mw : Nat) (hmw : 1 ≤ mw) (n : Nat) :
    ScanInv mw y n ((List.range n).foldl (vwf_body px sep y mw) []) := by
  induction n with
  | zero => exact ⟨[], none, rfl, List.chain'_nil, by simp, by simp⟩
  | succ n ih =>
    rw [List.range_succ, List.foldl_append]
    exact ScanInv.step px sep hmw ih

/-- From adjacent ordering and positivity of runs to the global pairwise
ordering: every run ends at or before every later run starts. -/
theorem chain'_le_pairwise (l : List (Nat × Nat))
    (hc : l.Chain' (fun a b => a.2 ≤ b.1))
    (hlt : ∀ se ∈ l, se.1 < se.2) :
    l.Pairwise (fun a b => a.2 ≤ b.1) := by
  induction l with
  | nil => exact List.Pairwise.nil
  | cons a l ih =>
    refine List.Pairwise.cons ?_ (ih hc.tail (fun se h => hlt se (by simp [h])))
    clear ih
    induction l generalizing a with
    | nil => intro b hb; cases hb
    | cons b l ihl =>
      intro c hc'
      have hab : a.2 ≤ b.1 := (List.chain'_cons.mp hc).1
      rcases List.mem_cons.mp hc' with rfl | hc''
      · exact hab
      · have hb2 : b.2 ≤ c.1 := ihl b (List.chain'_cons.mp hc).2
          (fun se h => hlt se (by simp at h ⊢; tauto)) c hc''
        have := hlt b (by simp)
        omega

/-- C9: for every pixel row, width and `maxwidth ≥ 1`, `vwfscan_line`
returns only closed runs `(start, y, end)` (none with `end = None`), in
strictly increasing pairwise-disjoint order (each run ends at or before
the next starts, and runs are non-empty), with
`start < end ≤ width` and `end - start ≤ maxwidth`. -/
theorem vwfscan_line_runs_wf (y width mw : Nat) (hmw : 1 ≤ mw) :
    ∃ rs : List (Nat × Nat),
      vwfscan_line px y width mw sep = rs.map (runOf y) ∧
      rs.Pairwise (fun a b => a.2 ≤ b.1) ∧
      ∀ se ∈ rs, se.1 < se.2 ∧ se.2 ≤ width ∧ se.2 - se.1 ≤ mw := by
  obtain ⟨cs, op, heq, hchain, hgood, hop⟩ := scan_fold_inv px sep y mw hmw width
  simp only [vwfscan_line]
  rw [heq]
  cases op with
  | none =>
    rcases List.eq_nil_or_concat' cs with hcs | ⟨cs', se, hcs⟩
    · subst hcs
      exact ⟨[], rfl, List.Pairwise.nil, by simp⟩
    · subst hcs
      refine ⟨cs' ++ [se], ?_, ?_, ?_⟩
      · show (match ((cs' ++ [se]).map (runOf y) ++ []).getLast? with
          | some (s, none) => _ | _ => _) = _
        rw [List.append_nil, List.map_append]
        show (match (cs'.map (runOf y) ++ [runOf y se]).getLast? with
          | some (s, none) => _ | _ => _) = _
        rw [List.getLast?_concat]
        simp [runOf]
      · exact chain'_le_pairwise _ hchain (fun se' h => (hgood se' h).1)
      · exact fun se' h => hgood se' h
  | some s =>
    obtain ⟨hs1, hs2, hs3⟩ := hop s rfl
    have hgood' : ∀ se' ∈ cs ++ [(s, width)],
        se'.1 < se'.2 ∧ se'.2 ≤ width ∧ se'.2 - se'.1 ≤ mw := by
      intro se' hse'
      rcases List.mem_append.mp hse' with h' | h'
      · exact hgood se' h'
      · simp only [List.mem_singleton] at h'
        subst h'
        exact ⟨hs1, by simp, by simp; omega⟩
    refine ⟨cs ++ [(s, width)], ?_, ?_, hgood'⟩
    · show (match (cs.map (runOf y) ++ [(s, none)]).getLast? with
        | some (s, none) => _ | _ => _) = _
      rw [List.getLast?_concat]
      simp only [List.dropLast_concat, List.map_append]
      rfl
    · refine chain'_le_pairwise _ ?_ (fun se' h => (hgood' se' h).1)
      rw [List.chain'_append]
      refine ⟨hchain, List.chain'_singleton _, ?_⟩
      intro a ha b hb
      simp only [List.head?_cons, Option.mem_def, Option.some.injEq] at hb
      subst hb
      exact hs3 a (mem_of_getLast? ha)

end VwfScan

/-- Witness for C9 on a concrete all-opaque strip. -/
theorem vwfscan_line_runs_wf_witness :
    ∃ rs : List (Nat × Nat),
      vwfscan_line (fun _ _ => (1 : Nat)) 5 10 3 0 = rs.map (runOf 5) ∧
      rs.Pairwise (fun a b => a.2 ≤ b.1) ∧
      ∀ se ∈ rs, se.1 < se.2 ∧ se.2 ≤ 10 ∧ se.2 - se.1 ≤ 3 :=
  vwfscan_line_runs_wf (fun _ _ => (1 : Nat)) 0 5 10 3 (by decide)

/-- C3: on a strip of width 10 with `maxwidth = 3` in which every pixel
differs from the separator color, `vwfscan_line` yields exactly the runs
`(0, y, 3)`, `(3, y, 6)`, `(6, y, 9)`, `(9, y, 10)`: an open run is
forcibly closed at the first column `x` with `startX + maxwidth ≤ x`,
a new run starts immediately at that non-separator column, and the run
still open at end of line is closed at the full width. -/
theorem vwfscan_line_forced_split {α : Type} [DecidableEq α]
    (px : Nat → Nat → α) (sep : α) (y : Nat)
    (hx : ∀ x, x < 10 → px x y ≠ sep) :
    vwfscan_line px y 10 3 sep =
      [(0, some (y, 3)), (3, some (y, 6)), (6, some (y, 9)),
        (9, some (y, 10))] := by
  have h0 : (decide (px 0 y ≠ sep)) = true := decide_eq_true (hx 0 (by norm_num))
  have h1 : (decide (px 1 y ≠ sep)) = true := decide_eq_true (hx 1 (by norm_num))
  have h2 : (decide (px 2 y ≠ sep)) = true := decide_eq_true (hx 2 (by norm_num))
  have h3 : (decide (px 3 y ≠ sep)) = true := decide_eq_true (hx 3 (by norm_num))
  have h4 : (decide (px 4 y ≠ sep)) = true := decide_eq_true (hx 4 (by norm_num))
  have h5 : (decide (px 5 y ≠ sep)) = true := decide_eq_true (hx 5 (by norm_num))
  have h6 : (decide (px 6 y ≠ sep)) = true := decide_eq_true (hx 6 (by norm_num))
  have h7 : (decide (px 7 y ≠ sep)) = true := decide_eq_true (hx 7 (by norm_num))
  have h8 : (decide (px 8 y ≠ sep)) = true := decide_eq_true (hx 8 (by norm_num))
  have h9 : (decide (px 9 y ≠ sep)) = true := decide_eq_true (hx 9 (by norm_num))
  have hr : List.range 10 = [0, 1, 2, 3, 4, 5, 6, 7, 8, 9] := rfl
  simp only [vwfscan_line, hr, List.foldl_cons, List.foldl_nil]
  simp [vwf_body, h0, h1, h2, h3, h4, h5, h6, h7, h8, h9, List.getLastD]

/-- Witness for C3 on a concrete all-opaque strip. -/
theorem vwfscan_line_forced_split_witness :
    vwfscan_line (fun _ _ => (1 : Nat)) 5 10 3 0 =
      [(0, some (5, 3)), (3, some (5, 6)), (6, some (5, 9)),
        (9, some (5, 10))] :=
  vwfscan_line_forced_split (fun _ _ => (1 : Nat)) 0 5
    (fun _ _ => Nat.one_ne_zero)

/-! ### Rendering (`PILtxt.text_size` / `PILtxt.textout`)

In the Python constructor exactly one of `self.cw` (`glyphWidth`) and
`self.vwf_table` is `None`: proportional fonts have `cw = None` and a
scanned table, monospace fonts have an integer `cw` and `vwf_table =
None`.  `Layout` encodes that sum. -/

/-- The layout of a loaded `PILtxt` font.  A proportional table entry is
a closed slice `(left, top, right)` as produced by `vwfscan_line`. -/
inductive Layout where
  | prop (vwf_table : List (Nat × Nat × Nat))
  | mono (cw : Nat)
deriving DecidableEq

/-- The state a `PILtxt` object carries that rendering reads:
`self.img.size`, `self.ch` (`glyphHeight`), the layout, and
`self.ranges`. -/
structure Font where
  imgW : Nat
  imgH : Nat
  ch : Nat
  layout : Layout
  ranges : List CodepointRange
deriving DecidableEq

/-- The Python exceptions rendering can raise. -/
inductive TextErr where
  /-- `IndexError` from `self.ranges[idx]` in `cp_to_glyph` when the
  range table is empty. -/
  | rangesIndexError
  /-- The `IndexError` raised by `text_size` with message
  `glyphid %d >= vwf_table length %d; malformed foni?`, carrying the
  offending glyph index and the table length. -/
  | vwfIndexError (glyphid tablelen : Nat)
  /-- The bare `IndexError` from `wids[c]` in `textout`. -/
  | rawIndexError
  /-- `TypeError` from arithmetic on the `None` glyph width of a
  proportional font whose scanned table is empty (falsy). -/
  | typeErr
  /-- `ZeroDivisionError` from `c // rowsz` when `rowsz == 0`. -/
  | zeroDivErr
deriving DecidableEq

/-- One element of `[self.cp_to_glyph(c) or 0 for c in txt]`: an
unmapped codepoint (`None`, falsy) becomes glyph 0; so does a mapped
glyph index 0 (also falsy — with the same value), any other glyph index
is kept. -/
def resolve1 (ranges : List CodepointRange) (c : Nat) : Except TextErr Nat :=
  match cp_to_glyph ranges c with
  | none => .error .rangesIndexError
  | some og => .ok (og.getD 0)

/-- The full list comprehension shared verbatim by `text_size` and
`textout`. -/
def resolve (ranges : List CodepointRange) (txt : List Nat) :
    Except TextErr (List Nat) :=
  txt.mapM (resolve1 ranges)

/-- `PILtxt.text_size`, source lines 167-183.  `txt` is the line's list
of codepoints, the result the `(w, h)` pixel size.  Python truthiness of
`self.vwf_table` is `tbl ≠ []`; a proportional font with an empty table
falls into the fixed-width branch where `self.cw` is `None` and
`sum(self.cw for c in txt1)` raises `TypeError`. -/
def text_size (f : Font) (txt : List Nat) : Except TextErr (Nat × Nat) := do
  let txt1 ← resolve f.ranges txt
  let w ←
    if txt1.isEmpty then pure 0
    else
      match f.layout with
      | .prop tbl =>
        if tbl.isEmpty then Except.error .typeErr
        else if tbl.length ≤ txt1.foldl max 0 then
          Except.error (.vwfIndexError (txt1.foldl max 0) tbl.length)
        else
          pure (txt1.foldl (fun acc c =>
            acc + ((tbl.getD c (0, 0, 0)).2.2 - (tbl.getD c (0, 0, 0)).1)) 0)
      | .mono cw => pure (txt1.length * cw)
  pure (w, f.ch)

/-- One `img.crop((l, t, r, t + ch))` + `dstSurface.paste(..., (x, y))`
pair recorded by `textout`: the source rectangle and the destination
position. -/
abbrev Paste := (Nat × Nat × Nat × Nat) × (Nat × Nat)

/-- The `for c in txt1` loop of `textout` for a (truthy) proportional
table: look the glyph box up — a bare `IndexError` when the index is out
of the table — paste it, and advance the cursor by the box width. -/
def textout_prop (tbl : List (Nat × Nat × Nat)) (ch : Nat) :
    List Nat → Nat → Nat → Except TextErr (Nat × List Paste)
  | [], x, _ => .ok (x, [])
  | c :: cs, x, y =>
    match tbl[c]? with
    | none => .error .rawIndexError
    | some ltr => do
        let s ← textout_prop tbl ch cs (x + (ltr.2.2 - ltr.1)) y
        pure (s.1, ((ltr.1, ltr.2.1, ltr.2.2, ltr.2.1 + ch), (x, y)) :: s.2)

/-- The `for c in txt1` loop of `textout` for a fixed-width font:
compute the cell rectangle from the glyph index; a glyph whose top row
`t` is at or below the image bottom is skipped (`continue`) — no paste
and no cursor advance. -/
def textout_mono (rowsz cw ch imgH : Nat) :
    List Nat → Nat → Nat → Except TextErr (Nat × List Paste)
  | [], x, _ => .ok (x, [])
  | c :: cs, x, y =>
    if rowsz = 0 then .error .zeroDivErr
    else
      let t := c / rowsz * ch
      if imgH ≤ t then textout_mono rowsz cw ch imgH cs x y
      else
        let l := c % rowsz * cw
        let r := l + cw
        do
          let s ← textout_mono rowsz cw ch imgH cs (x + (r - l)) y
          pure (s.1, ((l, t, r, t + ch), (x, y)) :: s.2)

/-- `PILtxt.textout`, source lines 185-203: returns the bounding box
`(startx, y, x, y + ch)` of the rendered text together with the list of
paste operations performed on the destination surface.  For a falsy
(`None` or empty) `wids`, `rowsz = self.img.size[0] // self.cw` is
computed before the loop: `TypeError` for a proportional font with an
empty table (`cw` is `None`), `ZeroDivisionError` for `cw == 0`. -/
def textout (f : Font) (txt : List Nat) (x y : Nat) :
    Except TextErr ((Nat × Nat × Nat × Nat) × List Paste) := do
  let txt1 ← resolve f.ranges txt
  match f.layout with
  | .prop tbl =>
    if tbl.isEmpty then Except.error .typeErr
    else do
      let s ← textout_prop tbl f.ch txt1 x y
      pure ((x, y, s.1, y + f.ch), s.2)
  | .mono cw =>
    if cw = 0 then Except.error .zeroDivErr
    else do
      let s ← textout_mono (f.imgW / cw) cw f.ch f.imgH txt1 x y
      pure ((x, y, s.1, y + f.ch), s.2)

/-- The glyph index a codepoint resolves to under the `or 0` fallback:
its own glyph index when mapped, 0 when unmapped. -/
def glyphOr0 (ranges : List CodepointRange) (c : Nat) : Nat :=
  match cp_to_glyph ranges c with
  | some (some g) => g
  | _ => 0

section RenderLemmas

/-- With a non-empty range table `cp_to_glyph` always returns a Python
value (never the `IndexError` modelled by the outer `none`). -/
theorem cp_to_glyph_isSome {rs : List CodepointRange} (hne : rs ≠ [])
    (cp : Nat) : ∃ og, cp_to_glyph rs cp = some og := by
  have hinv := bisect_right_inv rs cp 0 rs.length (by omega) (le_refl _)
    (Or.inl rfl) (Or.inl rfl)
  set idx0 := bisect_right rs cp 0 rs.length with hidx0
  obtain ⟨⟨_, hub⟩, _, _⟩ := hinv
  have hlen : 0 < rs.length := List.length_pos.mpr hne
  set idx := (if 0 < idx0 ∧ (rs.length ≤ idx0 ∨ cp < (rs.getD idx0 (0, 0, 0)).1)
      then idx0 - 1 else idx0) with hidx
  have hbound : idx < rs.length := by
    rw [hidx]
    split
    · omega
    · rename_i hcond
      rw [not_and_or] at hcond
      rcases hcond with h5 | h5
      · omega
      · rw [not_or] at h5
        omega
  refine ⟨if rs[idx].1 ≤ cp ∧ cp < rs[idx].2.1
      then some (cp - rs[idx].1 + rs[idx].2.2) else none, ?_⟩
  show (match rs[idx]? with
    | none => none
    | some r =>
        some (if r.1 ≤ cp ∧ cp < r.2.1 then some (cp - r.1 + r.2.2) else none)) = _
  rw [List.getElem?_eq_getElem hbound]

/-- `resolve1` never raises for a non-empty range table, and computes the
`or 0` fallback. -/
theorem resolve1_eq {rs : List CodepointRange} (hne : rs ≠ []) (c : Nat) :
    resolve1 rs c = .ok (glyphOr0 rs c) := by
  obtain ⟨og, hog⟩ := cp_to_glyph_isSome hne c
  unfold resolve1 glyphOr0
  rw [hog]
  cases og <;> rfl

/-- The shared list comprehension: with a non-empty range table it maps
every codepoint to its fallback glyph index and never raises. -/
theorem resolve_eq {rs : List CodepointRange} (hne : rs ≠ [])
    (txt : List Nat) : resolve rs txt = .ok (txt.map (glyphOr0 rs)) := by
  induction txt with
  | nil => rfl
  | cons c cs ih =>
    show (c :: cs).mapM (resolve1 rs) = _
    rw [List.mapM_cons, resolve1_eq hne,
      show cs.mapM (resolve1 rs) = resolve rs cs from rfl, ih]
    rfl

/-- The initial accumulator bounds the fold of `max`. -/
theorem le_foldl_max (l : List Nat) (b : Nat) : b ≤ l.foldl max b := by
  induction l generalizing b with
  | nil => exact le_refl _
  | cons a l ih => exact le_trans (Nat.le_max_left b a) (ih _)

/-- Every member bounds the fold of `max`. -/
theorem mem_le_foldl_max {l : List Nat} {g : Nat} (h : g ∈ l) (b : Nat) :
    g ≤ l.foldl max b := by
  induction l generalizing b with
  | nil => cases h
  | cons a l ih =>
    rcases List.mem_cons.mp h with rfl | h'
    · exact le_trans (Nat.le_max_right b g) (le_foldl_max _ _)
    · exact ih h' _

/-- The fold of `max` is the accumulator or some member. -/
theorem foldl_max_cases (l : List Nat) (b : Nat) :
    l.foldl max b = b ∨ ∃ g ∈ l, l.foldl max b = g := by
  induction l generalizing b with
  | nil => exact Or.inl rfl
  | cons a l ih =>
    have hstep : (a :: l).foldl max b = l.foldl max (max b a) := rfl
    rcases ih (max b a) with h | ⟨g, hg, hfold⟩
    · rcases Nat.le_total b a with hba | hba
      · refine Or.inr ⟨a, by simp, ?_⟩
        rw [hstep, h, Nat.max_eq_right hba]
      · refine Or.inl ?_
        rw [hstep, h, Nat.max_eq_left hba]
    · exact Or.inr ⟨g, by simp [hg], by rw [hstep, hfold]⟩

/-- A positive bound is reached by the fold of `max` over 0 iff some
member reaches it. -/
theorem le_foldl_max_iff (l : List Nat) (L : Nat) (hL : 1 ≤ L) :
    L ≤ l.foldl max 0 ↔ ∃ g ∈ l, L ≤ g := by
  constructor
  · intro h
    rcases foldl_max_cases l 0 with h' | ⟨g, hg, h'⟩
    · omega
    · exact ⟨g, hg, by omega⟩
  · rintro ⟨g, hg, h⟩
    exact le_trans h (mem_le_foldl_max hg 0)

/-- Characterization of the fixed-width `textout` loop when `rowsz` is
positive: it never raises, pastes exactly one rectangle per glyph whose
top row is above the image bottom, and advances the cursor by `cw` for
each of those; skipped glyphs contribute neither. -/
theorem textout_mono_spec (rowsz cw ch imgH : Nat) (hrowsz : 0 < rowsz)
    (cs : List Nat) : ∀ x y : Nat,
    ∃ ps : List Paste,
      textout_mono rowsz cw ch imgH cs x y =
        .ok (x + cw * cs.countP (fun c => decide (c / rowsz * ch < imgH)), ps) ∧
      ps.length = cs.countP (fun c => decide (c / rowsz * ch < imgH)) := by
  induction cs with
  | nil => exact fun x y => ⟨[], by simp [textout_mono], rfl⟩
  | cons c cs ih =>
    intro x y
    have hcount := List.countP_cons (fun c => decide (c / rowsz * ch < imgH)) c cs
    by_cases hskip : imgH ≤ c / rowsz * ch
    · obtain ⟨ps, hout, hlen⟩ := ih x y
      refine ⟨ps, ?_, ?_⟩
      · show (if rowsz = 0 then Except.error TextErr.zeroDivErr
          else if imgH ≤ c / rowsz * ch then textout_mono rowsz cw ch imgH cs x y
          else _) = _
        rw [if_neg (by omega), if_pos hskip, hout]
        have : ¬ (c / rowsz * ch < imgH) := by omega
        simp [hcount, this]
      · rw [hlen, hcount]
        have : ¬ (c / rowsz * ch < imgH) := by omega
        simp [this]
    · obtain ⟨ps, hout, hlen⟩ := ih (x + (c % rowsz * cw + cw - c % rowsz * cw)) y
      have hkeep : c / rowsz * ch < imgH := by omega
      refine ⟨((c % rowsz * cw, c / rowsz * ch, c % rowsz * cw + cw,
          c / rowsz * ch + ch), (x, y)) :: ps, ?_, ?_⟩
      · show (if rowsz = 0 then Except.error TextErr.zeroDivErr
          else if imgH ≤ c / rowsz * ch then textout_mono rowsz cw ch imgH cs x y
          else do
            let s ← textout_mono rowsz cw ch imgH cs
              (x + (c % rowsz * cw + cw - c % rowsz * cw)) y
            pure (s.1, ((c % rowsz * cw, c / rowsz * ch, c % rowsz * cw + cw,
              c / rowsz * ch + ch), (x, y)) :: s.2)) = _
        rw [if_neg (by omega), if_neg (by omega), hout]
        have harith : x + (c % rowsz * cw + cw - c % rowsz * cw) +
            cw * cs.countP (fun c => decide (c / rowsz * ch < imgH)) =
            x + cw * (c :: cs).countP (fun c => decide (c / rowsz * ch < imgH)) := by
          rw [hcount]
          simp only [hkeep, decide_eq_true_eq, if_pos]
          have h1 : c % rowsz * cw + cw - c % rowsz * cw = cw := by omega
          rw [h1, Nat.mul_add, Nat.mul_one]
          omega
        rw [harith]
        rfl
      · simp only [List.length_cons, hlen, hcount]
        simp [hkeep]

/-- The proportional `textout` loop raises the bare `IndexError` as soon
as some glyph index is outside the table. -/
theorem textout_prop_error (tbl : List (Nat × Nat × Nat)) (ch : Nat)
    (cs : List Nat) (h : ∃ c ∈ cs, tbl.length ≤ c) :
    ∀ x y : Nat, textout_prop tbl ch cs x y = .error .rawIndexError := by
  induction cs with
  | nil => obtain ⟨c, hc, _⟩ := h; cases hc
  | cons c cs ih =>
    intro x y
    rcases Nat.lt_or_ge c tbl.length with hc | hc
    · have htail : ∃ c' ∈ cs, tbl.length ≤ c' := by
        obtain ⟨c', hc', hge⟩ := h
        rcases List.mem_cons.mp hc' with rfl | h'
        · omega
        · exact ⟨c', h', hge⟩
      show (match tbl[c]? with
        | none => Except.error TextErr.rawIndexError
        | some ltr => do
            let s ← textout_prop tbl ch cs (x + (ltr.2.2 - ltr.1)) y
            pure (s.1, ((ltr.1, ltr.2.1, ltr.2.2, ltr.2.1 + ch), (x, y)) :: s.2)) = _
      rw [List.getElem?_eq_getElem hc]
      show (do
        let s ← textout_prop tbl ch cs (x + (tbl[c].2.2 - tbl[c].1)) y
        pure (s.1, ((tbl[c].1, tbl[c].2.1, tbl[c].2.2, tbl[c].2.1 + ch),
          (x, y)) :: s.2)) = _
      rw [ih htail]
      rfl
    · show (match tbl[c]? with
        | none => Except.error TextErr.rawIndexError
        | some ltr => do
            let s ← textout_prop tbl ch cs (x + (ltr.2.2 - ltr.1)) y
            pure (s.1, ((ltr.1, ltr.2.1, ltr.2.2, ltr.2.1 + ch), (x, y)) :: s.2)) = _
      rw [List.getElem?_eq_none (by omega)]

/-- The proportional `textout` loop on a single in-table glyph pastes
that glyph's box and advances by its width. -/
theorem textout_prop_singleton (tbl : List (Nat × Nat × Nat)) (ch : Nat)
    (g x y : Nat) (hg : g < tbl.length) :
    textout_prop tbl ch [g] x y =
      .ok (x + ((tbl.getD g (0, 0, 0)).2.2 - (tbl.getD g (0, 0, 0)).1),
        [(((tbl.getD g (0, 0, 0)).1, (tbl.getD g (0, 0, 0)).2.1,
          (tbl.getD g (0, 0, 0)).2.2, (tbl.getD g (0, 0, 0)).2.1 + ch),
          (x, y))]) := by
  show (match tbl[g]? with
    | none => Except.error TextErr.rawIndexError
    | some ltr => do
        let s ← textout_prop tbl ch [] (x + (ltr.2.2 - ltr.1)) y
        pure (s.1, ((ltr.1, ltr.2.1, ltr.2.2, ltr.2.1 + ch), (x, y)) :: s.2)) = _
  rw [List.getElem?_eq_getElem hg, List.getD_eq_getElem _ _ hg]
  rfl

end RenderLemmas

/-- C6: for a proportional font (non-empty scanned table) with a
well-formed (non-empty) range table and non-empty text, `text_size`
raises an `IndexError` carrying the offending glyph index (the maximum
resolved index) and the table length whenever some resolved glyph index
is out of the proportional table (index `≥` length), and returns
normally — the summed widths and the glyph height — otherwise. -/
theorem text_size_vwf_index_check
    (ranges : List CodepointRange) (tbl : List (Nat × Nat × Nat))
    (imgW imgH ch : Nat) (hne : ranges ≠ []) (htbl : tbl ≠ [])
    (txt : List Nat) (htxt : txt ≠ []) :
    ((∃ g ∈ txt.map (glyphOr0 ranges), tbl.length ≤ g) →
      text_size ⟨imgW, imgH, ch, .prop tbl, ranges⟩ txt =
        .error (.vwfIndexError ((txt.map (glyphOr0 ranges)).foldl max 0)
          tbl.length)) ∧
    ((∀ g ∈ txt.map (glyphOr0 ranges), g < tbl.length) →
      text_size ⟨imgW, imgH, ch, .prop tbl, ranges⟩ txt =
        .ok ((txt.map (glyphOr0 ranges)).foldl
          (fun acc c => acc + ((tbl.getD c (0, 0, 0)).2.2 -
            (tbl.getD c (0, 0, 0)).1)) 0, ch)) := by
  have hmape : (txt.map (glyphOr0 ranges)).isEmpty = false := by
    cases txt with
    | nil => cases htxt rfl
    | cons a l => rfl
  have htbe : tbl.isEmpty = false := by
    cases tbl with
    | nil => cases htbl rfl
    | cons a l => rfl
  constructor
  · rintro ⟨g, hg, hge⟩
    have hcond : tbl.length ≤ (txt.map (glyphOr0 ranges)).foldl max 0 :=
      (le_foldl_max_iff _ _ (by cases tbl with
        | nil => cases htbl rfl
        | cons a l => simp)).mpr ⟨g, hg, hge⟩
    simp [text_size, resolve_eq hne, hmape, htbe, hcond, bind, Except.bind]
  · intro hall
    have hcond : ¬ (tbl.length ≤ (txt.map (glyphOr0 ranges)).foldl max 0) := by
      intro hcon
      obtain ⟨g, hg, hge⟩ := (le_foldl_max_iff _ _ (by cases tbl with
        | nil => cases htbl rfl
        | cons a l => simp)).mp hcon
      have := hall g hg
      omega
    simp [text_size, resolve_eq hne, hmape, htbe, hcond, bind, Except.bind]
    rfl
/-- C7: in both `text_size` and `textout`, every codepoint for which
`cp_to_glyph` returns `None` is silently substituted with glyph index 0
(first conjunct: the shared resolution step never raises for a non-empty
range table), and codepoints that do map are rendered with their own
glyph index: the box pasted and the width advanced come from the glyph's
own table entry. -/
theorem unmapped_codepoint_glyph0_fallback
    (ranges : List CodepointRange) (tbl : List (Nat × Nat × Nat))
    (imgW imgH ch : Nat) (hne : ranges ≠ []) (htbl : tbl ≠ [])
    (cp x y : Nat) :
    (∀ txt : List Nat, resolve ranges txt = .ok (txt.map (glyphOr0 ranges))) ∧
    (cp_to_glyph ranges cp = some none →
      glyphOr0 ranges cp = 0 ∧
      text_size ⟨imgW, imgH, ch, .prop tbl, ranges⟩ [cp] =
        .ok ((tbl.getD 0 (0, 0, 0)).2.2 - (tbl.getD 0 (0, 0, 0)).1, ch) ∧
      textout ⟨imgW, imgH, ch, .prop tbl, ranges⟩ [cp] x y =
        .ok ((x, y,
            x + ((tbl.getD 0 (0, 0, 0)).2.2 - (tbl.getD 0 (0, 0, 0)).1),
            y + ch),
          [(((tbl.getD 0 (0, 0, 0)).1, (tbl.getD 0 (0, 0, 0)).2.1,
            (tbl.getD 0 (0, 0, 0)).2.2, (tbl.getD 0 (0, 0, 0)).2.1 + ch),
            (x, y))])) ∧
    (∀ g, cp_to_glyph ranges cp = some (some g) → g < tbl.length →
      glyphOr0 ranges cp = g ∧
      text_size ⟨imgW, imgH, ch, .prop tbl, ranges⟩ [cp] =
        .ok ((tbl.getD g (0, 0, 0)).2.2 - (tbl.getD g (0, 0, 0)).1, ch) ∧
      textout ⟨imgW, imgH, ch, .prop tbl, ranges⟩ [cp] x y =
        .ok ((x, y,
            x + ((tbl.getD g (0, 0, 0)).2.2 - (tbl.getD g (0, 0, 0)).1),
            y + ch),
          [(((tbl.getD g (0, 0, 0)).1, (tbl.getD g (0, 0, 0)).2.1,
            (tbl.getD g (0, 0, 0)).2.2, (tbl.getD g (0, 0, 0)).2.1 + ch),
            (x, y))])) := by
  have htbe : tbl.isEmpty = false := by
    cases tbl with
    | nil => cases htbl rfl
    | cons a l => rfl
  have hlenpos : 0 < tbl.length := List.length_pos.mpr htbl
  refine ⟨fun txt => resolve_eq hne txt, ?_, ?_⟩
  · intro hcp
    have hg0 : glyphOr0 ranges cp = 0 := by unfold glyphOr0; rw [hcp]
    have hcond : ¬ (tbl.length ≤ ([cp].map (glyphOr0 ranges)).foldl max 0) := by
      have hfold : ([cp].map (glyphOr0 ranges)).foldl max 0 = glyphOr0 ranges cp := by
        simp
      rw [hfold, hg0]
      omega
    have hps := textout_prop_singleton tbl ch 0 x y hlenpos
    refine ⟨hg0, ?_, ?_⟩
    · simp [text_size, resolve_eq hne, htbe, htbl, hcond, hg0, bind, Except.bind]
      rfl
    · simp [textout, resolve_eq hne, htbe, htbl, hg0, hps, bind, Except.bind]
      rfl
  · intro g hcp hglt
    have hg0 : glyphOr0 ranges cp = g := by unfold glyphOr0; rw [hcp]
    have hcond : ¬ (tbl.length ≤ ([cp].map (glyphOr0 ranges)).foldl max 0) := by
      have hfold : ([cp].map (glyphOr0 ranges)).foldl max 0 = glyphOr0 ranges cp := by
        simp
      rw [hfold, hg0]
      omega
    have hps := textout_prop_singleton tbl ch g x y hglt
    have hcond2 : ¬ (tbl.length ≤ g) := by omega
    refine ⟨hg0, ?_, ?_⟩
    · simp [text_size, resolve_eq hne, htbe, htbl, hcond, hcond2, hg0, bind,
        Except.bind]
      rfl
    · simp [textout, resolve_eq hne, htbe, htbl, hg0, hps, bind, Except.bind]
      rfl

/-- C10: for a fixed-width font (with a usable `rowsz ≥ 1`), `textout`
silently skips every glyph whose source row top `t = c // rowsz * ch`
lies at or below the bottom of the atlas image: the paste count equals
the number of on-screen glyphs only, the cursor advances `cw` for each of
those only, and no exception is raised — unlike the proportional case
(second conjunct), where an out-of-table index makes `textout` raise a
bare `IndexError`. -/
theorem textout_mono_offscreen_skip
    (ranges : List CodepointRange) (imgW imgH ch cw : Nat)
    (hne : ranges ≠ []) (hrowsz : 0 < imgW / cw)
    (txt : List Nat) (x y : Nat) :
    (∃ ps : List Paste,
      textout ⟨imgW, imgH, ch, .mono cw, ranges⟩ txt x y =
        .ok ((x, y,
          x + cw * ((txt.map (glyphOr0 ranges)).countP
            (fun c => decide (c / (imgW / cw) * ch < imgH))), y + ch), ps) ∧
      ps.length = (txt.map (glyphOr0 ranges)).countP
        (fun c => decide (c / (imgW / cw) * ch < imgH))) ∧
    (∀ tbl : List (Nat × Nat × Nat), tbl ≠ [] →
      (∃ g ∈ txt.map (glyphOr0 ranges), tbl.length ≤ g) →
      textout ⟨imgW, imgH, ch, .prop tbl, ranges⟩ txt x y =
        .error .rawIndexError) := by
  have hcw : ¬ (cw = 0) := by
    intro h
    rw [h] at hrowsz
    simp at hrowsz
  constructor
  · obtain ⟨ps, hout, hlen⟩ :=
      textout_mono_spec (imgW / cw) cw ch imgH hrowsz
        (txt.map (glyphOr0 ranges)) x y
    refine ⟨ps, ?_, hlen⟩
    simp [textout, resolve_eq hne, hcw, hout, bind, Except.bind]
    rfl
  · intro tbl htbl hex
    have htbe : tbl.isEmpty = false := by
      cases tbl with
      | nil => cases htbl rfl
      | cons a l => rfl
    have herr := textout_prop_error tbl ch (txt.map (glyphOr0 ranges)) hex x y
    simp [textout, resolve_eq hne, htbe, herr, bind, Except.bind]

/-- Witness for C6: glyph 1 against a one-entry table raises the
descriptive `IndexError`. -/
theorem text_size_vwf_index_check_witness :
    text_size ⟨8, 8, 8, .prop [(0, 0, 3)], [(65, 91, 0)]⟩ [66] =
      .error (.vwfIndexError 1 1) := by
  have hg : glyphOr0 [(65, 91, 0)] 66 = 1 := by
    simp [glyphOr0, cp_to_glyph, bisect_right, keyLt]
  have h := (text_size_vwf_index_check [(65, 91, 0)] [(0, 0, 3)] 8 8 8
    (by decide) (by decide) [66] (by decide)).1 ⟨1, by simp [hg], by decide⟩
  simpa [hg] using h

/-- Witness for C7: the unmapped codepoint 64 is measured with glyph 0's
box `(0, 0, 3)`. -/
theorem unmapped_codepoint_glyph0_fallback_witness :
    text_size ⟨8, 8, 8, .prop [(0, 0, 3)], [(65, 91, 0)]⟩ [64] =
      .ok (3, 8) := by
  have hcp : cp_to_glyph [(65, 91, 0)] 64 = some none := by
    simp [cp_to_glyph, bisect_right, keyLt]
  have h := ((unmapped_codepoint_glyph0_fallback [(65, 91, 0)] [(0, 0, 3)]
    8 8 8 (by decide) (by decide) 64 0 0).2.1 hcp).2.1
  simpa using h

/-- Witness for C10: glyph 5 of an 8x16 one-column atlas has top row 40,
below the image bottom, so nothing is pasted and the cursor stays put. -/
theorem textout_mono_offscreen_skip_witness :
    textout ⟨8, 16, 8, .mono 8, [(65, 91, 0)]⟩ [70] 2 3 =
      .ok ((2, 3, 2, 11), []) := by
  obtain ⟨ps, hout, hlen⟩ := (textout_mono_offscreen_skip [(65, 91, 0)]
    8 16 8 8 (by decide) (by decide) [70] 2 3).1
  have hg : glyphOr0 [(65, 91, 0)] 70 = 5 := by
    simp [glyphOr0, cp_to_glyph, bisect_right, keyLt]
  have hps : ps = [] := List.length_eq_zero.mp (by simpa [hg] using hlen)
  subst hps
  simpa [hg] using hout

/-! ### Separator color selection (`PILtxt.__init__`) -/

/-- Pillow `Image.getextrema()` for a single-band image: the pair of the
minimum and maximum pixel values; `none` models calling it on an image
with no pixels. -/
def getextrema : List Nat → Option (Nat × Nat)
  | [] => none
  | p :: ps => some (ps.foldl min p, ps.foldl max p)

/-- Source lines 116-118: for a proportional font loaded from a
single-channel image, `(xparentColor, sepColor) = im.getextrema()` — the
separator color handed to `vwfscan_line` is the second component of the
extrema, i.e. the maximum pixel value. -/
def sep_color_1bit (pixels : List Nat) : Option Nat :=
  (getextrema pixels).map Prod.snd

/-- Modelled from the spec: the "minority extreme value" of a 1-bit
image — the less frequent of the two extreme pixel values (ties broken
towards the maximum; the tie-break is immaterial below). -/
def minorityExtreme (pixels : List Nat) : Option Nat :=
  (getextrema pixels).map (fun lohi =>
    if pixels.count lohi.1 < pixels.count lohi.2 then lohi.1 else lohi.2)

/-- Counterexample to C4 as stated: in the 1-bit image with pixel values
`[0, 255, 255]` the minority extreme is 0 (one black pixel against two
white), but the code picks 255 — `im.getextrema()` returns `(min, max)`
and the separator is always the maximum, regardless of frequency. -/
theorem sep_color_not_minority_cex :
    sep_color_1bit [0, 255, 255] = some 255 ∧
    minorityExtreme [0, 255, 255] = some 0 ∧
    sep_color_1bit [0, 255, 255] ≠ minorityExtreme [0, 255, 255] := by
  decide

/-- C4 (amended): when a proportional font is loaded from a
single-channel image, the separator color used by the glyph scan is the
maximum pixel value of the image (the second component of
`im.getextrema()`), irrespective of how frequent each extreme is. -/
theorem sep_color_is_max (p : Nat) (ps : List Nat) :
    sep_color_1bit (p :: ps) = some (ps.foldl max p) ∧
    ps.foldl max p ∈ p :: ps ∧
    ∀ q ∈ p :: ps, q ≤ ps.foldl max p := by
  refine ⟨rfl, ?_, ?_⟩
  · rcases foldl_max_cases ps p with h | ⟨g, hg, h⟩
    · rw [h]; exact List.mem_cons_self _ _
    · rw [h]; exact List.mem_cons_of_mem _ hg
  · intro q hq
    rcases List.mem_cons.mp hq with rfl | hq'
    · exact le_foldl_max _ _
    · exact mem_le_foldl_max hq' _

/-- Witness for the amended C4 at a concrete image. -/
theorem sep_color_is_max_witness :
    sep_color_1bit [0, 255, 255] = some ([255, 255].foldl max 0) :=
  (sep_color_is_max 0 [255, 255]).1

/-! ### Word scorer (`demowords.py`) -/

/-- A word, as a list of characters. -/
abbrev Word := List Char

/-- The score of one word: `sum(row[1] for row in lettervalues if
row[0] in wordchars)`, where `wordchars = set(word)` — membership in the
set of a string is membership in its characters. -/
def wordscore (lettervalues : List (Char × Int)) (word : Word) : Int :=
  ((lettervalues.filter (fun row => decide (row.1 ∈ word))).map
    (fun row => row.2)).sum

/-- The score-to-words mapping built by `get_wordsbyscore`:
`defaultdict(set)` is modelled as an association list in first-insertion
order, each bucket a duplicate-free list in insertion order. -/
abbrev WordBuckets := List (Int × List Word)

/-- `wordsbyscore[score].add(word)`: insert into the existing bucket
(sets ignore duplicates), or open a fresh bucket for an unseen score. -/
def bucket_add (m : WordBuckets) (s : Int) (w : Word) : WordBuckets :=
  if m.any (fun b => b.1 == s) then
    m.map (fun b =>
      if b.1 == s then (b.1, if w ∈ b.2 then b.2 else b.2 ++ [w]) else b)
  else m ++ [(s, [w])]

/-- Read one score's set of words back out of the mapping:
`wordsbyscore[score]`, the first (unique) bucket with that score, or the
empty set. -/
def bucket_get : WordBuckets → Int → List Word
  | [], _ => []
  | b :: m, s => if b.1 = s then b.2 else bucket_get m s

/-- `get_wordsbyscore`, source lines 5-13: strip each word, score it by
its set of distinct characters, and group the words by score. -/
def get_wordsbyscore (wordlist : List Word)
    (lettervalues : List (Char × Int)) : WordBuckets :=
  wordlist.foldl (fun m word =>
    let word := pystrip word
    bucket_add m (wordscore lettervalues word) word) []

section BucketLemmas

/-- Lookup at a matching head bucket. -/
theorem bucket_get_head_eq {b : Int × List Word} {m : WordBuckets} {s : Int}
    (h : b.1 = s) : bucket_get (b :: m) s = b.2 := by
  simp [bucket_get, h]

/-- Lookup skips a non-matching head bucket. -/
theorem bucket_get_head_ne {b : Int × List Word} {m : WordBuckets} {s : Int}
    (h : ¬ b.1 = s) : bucket_get (b :: m) s = bucket_get m s := by
  simp [bucket_get, h]

/-- Adding under a score different from the head bucket's leaves the head
alone. -/
theorem bucket_add_cons_ne {b : Int × List Word} {m : WordBuckets}
    {s : Int} {w : Word} (h : ¬ b.1 = s) :
    bucket_add (b :: m) s w = b :: bucket_add m s w := by
  by_cases hm : m.any (fun b => b.1 == s) <;>
    simp [bucket_add, List.any_cons, h, hm]

/-- The update map of `bucket_add` does not touch buckets of other
scores. -/
theorem bucket_map_get_ne (m : WordBuckets) (s s' : Int) (w' : Word)
    (hss : ¬ s' = s) :
    bucket_get (m.map (fun b =>
      if b.1 == s' then (b.1, if w' ∈ b.2 then b.2 else b.2 ++ [w']) else b)) s =
    bucket_get m s := by
  induction m with
  | nil => rfl
  | cons b m ih =>
    by_cases hb : b.1 = s'
    · have hbs : ¬ b.1 = s := by rw [hb]; exact hss
      rw [List.map_cons,
        show (if b.1 == s' then (b.1, if w' ∈ b.2 then b.2 else b.2 ++ [w'])
          else b) = (b.1, if w' ∈ b.2 then b.2 else b.2 ++ [w']) from by simp [hb],
        bucket_get_head_ne (b := (b.1, if w' ∈ b.2 then b.2 else b.2 ++ [w'])) hbs,
        bucket_get_head_ne hbs, ih]
    · rw [List.map_cons,
        show (if b.1 == s' then (b.1, if w' ∈ b.2 then b.2 else b.2 ++ [w'])
          else b) = b from by simp [hb]]
      by_cases hbs : b.1 = s
      · rw [bucket_get_head_eq hbs, bucket_get_head_eq hbs]
      · rw [bucket_get_head_ne hbs, bucket_get_head_ne hbs, ih]

/-- How one `add` changes each score's bucket: the target score's set
gains the word (if new), every other set is unchanged — whether the
target bucket already existed or not. -/
theorem bucket_get_add (m : WordBuckets) (s' : Int) (w' : Word) (s : Int) :
    bucket_get (bucket_add m s' w') s =
      if s' = s then
        (if w' ∈ bucket_get m s then bucket_get m s else bucket_get m s ++ [w'])
      else bucket_get m s := by
  induction m with
  | nil =>
    by_cases hss : s' = s <;>
      simp [bucket_add, bucket_get, hss]
  | cons b m ih =>
    by_cases hb : b.1 = s'
    · have hany : (b :: m).any (fun b => b.1 == s') = true := by simp [hb]
      rw [show bucket_add (b :: m) s' w' = (b :: m).map (fun b =>
        if b.1 == s' then (b.1, if w' ∈ b.2 then b.2 else b.2 ++ [w']) else b)
        from by simp [bucket_add, hany],
        List.map_cons,
        show (if b.1 == s' then (b.1, if w' ∈ b.2 then b.2 else b.2 ++ [w'])
          else b) = (b.1, if w' ∈ b.2 then b.2 else b.2 ++ [w']) from by simp [hb]]
      by_cases hss : s' = s
      · have hbs : b.1 = s := by rw [hb]; exact hss
        rw [if_pos hss, bucket_get_head_eq hbs,
          bucket_get_head_eq (b := (b.1, if w' ∈ b.2 then b.2 else b.2 ++ [w'])) hbs]
      · have hbs : ¬ b.1 = s := by rw [hb]; exact hss
        rw [if_neg hss,
          bucket_get_head_ne (b := (b.1, if w' ∈ b.2 then b.2 else b.2 ++ [w'])) hbs,
          bucket_get_head_ne hbs, bucket_map_get_ne m s s' w' hss]
    · rw [bucket_add_cons_ne hb]
      by_cases hbs : b.1 = s
      · have hss : ¬ s' = s := by
          intro h
          rw [h] at hb
          exact hb hbs
        rw [bucket_get_head_eq hbs, if_neg hss, bucket_get_head_eq hbs]
      · rw [bucket_get_head_ne hbs, bucket_get_head_ne hbs, ih]

/-- A word is in its bucket right after being added. -/
theorem bucket_add_self_mem (m : WordBuckets) (s : Int) (w : Word) :
    w ∈ bucket_get (bucket_add m s w) s := by
  rw [bucket_get_add, if_pos rfl]
  by_cases hw : w ∈ bucket_get m s
  · rw [if_pos hw]; exact hw
  · rw [if_neg hw]; exact List.mem_append.mpr (Or.inr (by simp))

/-- Adding a word never removes another word from any bucket. -/
theorem bucket_add_mem_mono {m : WordBuckets} {s : Int} {w : Word}
    (s' : Int) (w' : Word) (h : w ∈ bucket_get m s) :
    w ∈ bucket_get (bucket_add m s' w') s := by
  rw [bucket_get_add]
  by_cases hss : s' = s
  · rw [if_pos hss]
    by_cases hw : w' ∈ bucket_get m s
    · rw [if_pos hw]; exact h
    · rw [if_neg hw]; exact List.mem_append.mpr (Or.inl h)
  · rw [if_neg hss]; exact h

end BucketLemmas

/-- Membership in a bucket survives any further processed words. -/
theorem foldl_bucket_mem_mono (lv : List (Char × Int))
    (wordlist : List Word) : ∀ (m : WordBuckets) (w : Word) (s : Int),
    w ∈ bucket_get m s →
    w ∈ bucket_get (wordlist.foldl (fun m word =>
      bucket_add m (wordscore lv (pystrip word)) (pystrip word)) m) s := by
  induction wordlist with
  | nil => exact fun _ _ _ h => h
  | cons v vs ih =>
    intro m w s h
    exact ih _ w s (bucket_add_mem_mono _ _ h)

/-- Every processed word ends up in the bucket of its score. -/
theorem foldl_bucket_mem_self (lv : List (Char × Int))
    (wordlist : List Word) : ∀ (m : WordBuckets) (w : Word),
    w ∈ wordlist →
    pystrip w ∈ bucket_get (wordlist.foldl (fun m word =>
      bucket_add m (wordscore lv (pystrip word)) (pystrip word)) m)
      (wordscore lv (pystrip w)) := by
  induction wordlist with
  | nil => intro m w h; cases h
  | cons v vs ih =>
    intro m w h
    rcases List.mem_cons.mp h with rfl | h'
    · exact foldl_bucket_mem_mono lv vs _ _ _ (bucket_add_self_mem m _ _)
    · exact ih _ w h'

/-- C8: `get_wordsbyscore` assigns each whitespace-trimmed word a score
equal to the sum of the weights of the table entries whose letter occurs
among the word's distinct characters, and groups the word under that
score; repeated letters do not change the score (`"aaa"` scores as
`"a"` under every table), and for the table `[('a',1),('b',2)]` the
words `"ab"`, `"a"`, `"c"` land in the groups for scores 3, 1 and 0. -/
theorem get_wordsbyscore_spec :
    (∀ (wordlist : List Word) (lv : List (Char × Int)) (w : Word),
      w ∈ wordlist →
      pystrip w ∈ bucket_get (get_wordsbyscore wordlist lv)
        (wordscore lv (pystrip w))) ∧
    (∀ lv : List (Char × Int),
      wordscore lv ['a', 'a', 'a'] = wordscore lv ['a']) ∧
    (get_wordsbyscore [['a', 'b'], ['a'], ['c']] [('a', 1), ('b', 2)] =
      [(3, [['a', 'b']]), (1, [['a']]), (0, [['c']])]) := by
  refine ⟨?_, ?_, by decide⟩
  · intro wordlist lv w hw
    exact foldl_bucket_mem_self lv wordlist [] w hw
  · intro lv
    unfold wordscore
    rw [List.filter_congr]
    intro row _
    by_cases h : row.1 = 'a' <;> simp [h]

/-- Witness for C8: the word `ab` lands in the bucket of its score 3. -/
theorem get_wordsbyscore_spec_witness :
    pystrip ['a', 'b'] ∈
      bucket_get (get_wordsbyscore [['a', 'b'], ['a'], ['c']]
        [('a', 1), ('b', 2)])
        (wordscore [('a', 1), ('b', 2)] (pystrip ['a', 'b'])) :=
  get_wordsbyscore_spec.1 [['a', 'b'], ['a'], ['c']] [('a', 1), ('b', 2)]
    ['a', 'b'] (by decide)
